import Mathlib

/-!
Shallow embedding of the minitorch module/parameter tree
(`src/minitorch/module.py`) and of the paired-list combinator `zipWith`
(`src/minitorch/operators.py`), together with theorems settling the
specification claims about them.

Modelling conventions:
* Python's insertion-ordered `dict` is modelled as an association list
  `List (String × α)`; assignment `d[k] = v` replaces the first entry with
  key `k` in place (preserving its position) or appends a fresh entry.
* Python's dynamically typed values that can be bound to a module field
  (`Any`) are modelled by the inductive type `Value`, whose constructors
  record the only classifications the code inspects: a `Parameter`, a
  `Module`, or any other ("plain") object.  A plain object carries the
  only attributes the code touches: an integer payload, whether it has a
  `requires_grad_` capability (Python `hasattr`), the boolean that
  capability sets, and an optional `name` attribute.
* The mutating Python methods are modelled as pure functions returning the
  updated structure.  The `training` attribute, declared as a typed class
  attribute in the source, is modelled as a distinguished field of
  `Module`; other plain attributes (the `else` branch of `__setattr__`)
  live in the `fields` association list.
* Strings manipulated by the renderer are modelled as `List Char`, so that
  Python's `str.split("\n")` and `"\n".join` become directly reasoned-about
  recursive functions.
-/

namespace Minitorch

/-- Python truthiness of an optional string (`if self.name:`): `None` and
the empty string are falsy. -/
def optTruthy : Option String → Bool
  | none => false
  | some s => !(s == "")

/-- Python `dict` assignment `d[k] = v` on an insertion-ordered dictionary:
if `k` is present its entry is replaced in place (keeping its position),
otherwise `(k, v)` is appended at the end. -/
def dictInsert (k : String) (v : α) : List (String × α) → List (String × α)
  | [] => [(k, v)]
  | e :: rest => if e.1 = k then (k, v) :: rest else e :: dictInsert k v rest

/-- Python `dict` lookup `d.get(k)`: first (unique) matching key. -/
def dictGet (k : String) : List (String × α) → Option α
  | [] => none
  | e :: rest => if e.1 = k then some e.2 else dictGet k rest

/-- Python `k in d`. -/
def dictContains (k : String) (d : List (String × α)) : Bool :=
  (dictGet k d).isSome

mutual

/-- A dynamically typed Python value as far as `module.py` inspects it:
either some plain object (with the attributes `Parameter.__init__`
probes), or a `Module`, or a `Parameter`. -/
inductive Value where
  | plain (data : Int) (hasRG : Bool) (rg : Bool) (vname : Option String)
  | ofModule (m : Module)
  | ofParameter (p : Parameter)

/-- `class Parameter`: `self.value` and `self.name`. -/
inductive Parameter where
  | mk (value : Value) (name : Option String)

/-- `class Module`: its class name (`self.__class__.__name__`), its plain
attribute dictionary (other than `training`), `self._parameters`,
`self._modules`, and `self.training`. -/
inductive Module where
  | mk (cls : String) (fields : List (String × Value))
       ( _parameters : List (String × Parameter))
       ( _modules : List (String × Module)) (training : Bool)

end

def Module.cls : Module → String
  | .mk c _ _ _ _ => c

def Module.fields : Module → List (String × Value)
  | .mk _ f _ _ _ => f

def Module._parameters : Module → List (String × Parameter)
  | .mk _ _ ps _ _ => ps

def Module._modules : Module → List (String × Module)
  | .mk _ _ _ ms _ => ms

def Module.training : Module → Bool
  | .mk _ _ _ _ tr => tr

def Parameter.value : Parameter → Value
  | .mk v _ => v

def Parameter.name : Parameter → Option String
  | .mk _ n => n

/-- `hasattr(x, "requires_grad_")`.  A plain payload reports its own
capability flag.  For a minitorch `Module` the probe is `true`: the
lenient `Module.__getattr__` returns `None` instead of raising
`AttributeError`, so `hasattr` succeeds even though no real capability
exists.  A `Parameter` defines no `__getattr__`, so the probe raises
`AttributeError` and `hasattr` is `false`. -/
def Value.hasRequiresGrad : Value → Bool
  | .plain _ h _ _ => h
  | .ofModule _ => true
  | .ofParameter _ => false

/-- The call `x.requires_grad_(True)` (only ever reached under the
`hasattr` guard).  On a plain payload carrying the capability it sets the
flag.  On a `Module` the attribute read yielded `None` (or another
non-callable entry), so the call raises `TypeError`; on a `Parameter`
the attribute does not exist (unreachable under the guard). -/
def Value.requires_grad_ (x : Value) (b : Bool) : Except String Value :=
  match x with
  | .plain d h _ n => .ok (.plain d h b n)
  | .ofModule _ => .error "TypeError"
  | .ofParameter _ => .error "TypeError"

/-- `x.name = n` (only ever executed under the `hasattr` guard). -/
def Value.setNameAttr (x : Value) (n : String) : Value :=
  match x with
  | .plain d h r _ => .plain d h r (some n)
  | v => v

/-- The flag that `requires_grad_` sets, read back. -/
def Value.rgFlag : Value → Bool
  | .plain _ _ r _ => r
  | .ofModule _ => false
  | .ofParameter _ => false

/-- The payload's own `name` attribute, read back. -/
def Value.nameAttr : Value → Option String
  | .plain _ _ _ n => n
  | .ofModule _ => none
  | .ofParameter _ => none

/-- `Parameter.__init__(self, x, name=None)`: store `x` and `name`; if
`hasattr(x, "requires_grad_")` then call `x.requires_grad_(True)` — which
raises `TypeError` for a `Module` payload — and, if the name is truthy,
assign `x.name = name`.  When the call raises, the constructor propagates
the exception and the caller never receives the object. -/
def Parameter.init (x : Value) (name : Option String) : Except String Parameter :=
  if x.hasRequiresGrad then
    match x.requires_grad_ true with
    | .error e => .error e
    | .ok x1 =>
      let x2 := if optTruthy name then x1.setNameAttr (name.getD "") else x1
      .ok (.mk x2 name)
  else
    .ok (.mk x name)

/-- `Parameter.update(self, x)`: `self.value = x` happens first; then the
same capability/name synchronisation as construction runs with the
existing `self.name`.  The result is the updated parameter state paired
with the raised `TypeError` when the capability call fails — in that case
`self.value` has already been replaced by `x` before the exception. -/
def Parameter.update (p : Parameter) (x : Value) : Parameter × Option String :=
  if x.hasRequiresGrad then
    match x.requires_grad_ true with
    | .error e => (.mk x p.name, some e)
    | .ok x1 =>
      let x2 := if optTruthy p.name then x1.setNameAttr (p.name.getD "") else x1
      (.mk x2 p.name, none)
  else
    (.mk x p.name, none)

/-- `Module.modules(self)`: the values of `self._modules`, in insertion
order. -/
def Module.modules (m : Module) : List Module :=
  m._modules.map (fun e => e.2)

/-- `Module.named_children(self)`: the items of `self._modules`. -/
def Module.named_children (m : Module) : List (String × Module) :=
  m._modules

/-- Number of nodes of a module tree (the measure for the queue-based
traversals). -/
def Module.size : Module → Nat
  | .mk _ _ _ ms _ => 1 + sizeL ms
where sizeL : List (String × Module) → Nat
  | [] => 0
  | e :: rest => e.2.size + sizeL rest

/-- Total size of a queue of named modules. -/
def sumSizesN (q : List (String × Module)) : Nat :=
  (q.map (fun e => e.2.size)).sum

/-- Total size of a queue of modules. -/
def sumSizesM (q : List Module) : Nat :=
  (q.map Module.size).sum

/-- Set the `training` flag of a module and of all its descendants.
`Module.train` / `Module.eval` mutate each node reachable through the
FIFO queue of `modules()`; on the acyclic tree modelled here the net
state change is exactly this node-wise flag update (the queue's visit
order itself is modelled by `bfsVisit` below). -/
def Module.setModeAll (b : Bool) : Module → Module
  | .mk c f ps ms _ => .mk c f ps (setL b ms) b
where setL (b : Bool) : List (String × Module) → List (String × Module)
  | [] => []
  | e :: rest => (e.1, e.2.setModeAll b) :: setL b rest

/-- `Module.train(self)`: `self.training = True`, then the queue-based
walk sets `training = True` on every descendant. -/
def Module.train (m : Module) : Module :=
  m.setModeAll true

/-- `Module.eval(self)`: `self.training = False`, then the queue-based
walk sets `training = False` on every descendant. -/
def Module.eval (m : Module) : Module :=
  m.setModeAll false

/-- All nodes of a module tree: the module itself and, child by child in
insertion order, all nodes of each child ("every reachable module"). -/
def Module.allNodes : Module → List Module
  | .mk c f ps ms tr => .mk c f ps ms tr :: allL ms
where allL : List (String × Module) → List Module
  | [] => []
  | e :: rest => e.2.allNodes ++ allL rest

/-- The visit order of the FIFO-queue loop shared by `Module.train` and
`Module.eval`: `to_set = deque(self.modules())`; repeatedly pop the left
element, visit it, and extend the queue with its `modules()`. -/
def bfsVisit (q : List Module) : List Module :=
  match q with
  | [] => []
  | mChild :: rest => mChild :: bfsVisit (rest ++ mChild.modules)
termination_by sumSizesM q
decreasing_by
  simp [sumSizesM, Module.modules, Function.comp_def]
  have key : ∀ mm : Module, ((mm._modules.map (fun x => x.2.size)).sum) < mm.size := by
    intro mm
    cases mm with
    | mk c f ps ms tr =>
      have h2 : ∀ l : List (String × Module),
          Module.size.sizeL l = (l.map (fun x => x.2.size)).sum := by
        intro l
        induction l with
        | nil => simp [Module.size.sizeL]
        | cons a r ih => simp [Module.size.sizeL, ih]
      simp [Module.size, Module._modules]
      rw [h2 ms]
      omega
  rw [Nat.add_comm]
  exact Nat.add_lt_add_right (key _) _

/-- The queue loop of `Module.named_parameters`: each queue entry carries
the accumulated dotted prefix; popping `(name, mChild)` appends
`(name ++ "." ++ n, p)` for each of `mChild`'s own parameter items, then
extends the queue with `mChild`'s named children, their names extended by
the prefix. -/
def npLoop (q : List (String × Module)) : List (String × Parameter) :=
  match q with
  | [] => []
  | entry :: rest =>
    (entry.2._parameters.map (fun e => (entry.1 ++ "." ++ e.1, e.2)))
      ++ npLoop (rest ++ entry.2.named_children.map (fun e => (entry.1 ++ "." ++ e.1, e.2)))
termination_by sumSizesN q
decreasing_by
  simp [sumSizesN, Module.named_children, Function.comp_def]
  have key : ∀ mm : Module, ((mm._modules.map (fun x => x.2.size)).sum) < mm.size := by
    intro mm
    cases mm with
    | mk c f ps ms tr =>
      have h2 : ∀ l : List (String × Module),
          Module.size.sizeL l = (l.map (fun x => x.2.size)).sum := by
        intro l
        induction l with
        | nil => simp [Module.size.sizeL]
        | cons a r ih => simp [Module.size.sizeL, ih]
      simp [Module.size, Module._modules]
      rw [h2 ms]
      omega
  rw [Nat.add_comm]
  exact Nat.add_lt_add_right (key _) _

/-- `Module.named_parameters(self)`: the items of `self._parameters`
(bare local names), then the queue walk seeded with
`self.named_children()`. -/
def Module.named_parameters (m : Module) : List (String × Parameter) :=
  m._parameters ++ npLoop m.named_children

/-- The queue loop of `Module.parameters`: popping `mChild` appends the
values of its `_parameters`, then extends the queue with
`mChild.modules()`. -/
def pLoop (q : List Module) : List Parameter :=
  match q with
  | [] => []
  | mChild :: rest =>
    (mChild._parameters.map (fun e => e.2)) ++ pLoop (rest ++ mChild.modules)
termination_by sumSizesM q
decreasing_by
  simp [sumSizesM, Module.modules, Function.comp_def]
  have key : ∀ mm : Module, ((mm._modules.map (fun x => x.2.size)).sum) < mm.size := by
    intro mm
    cases mm with
    | mk c f ps ms tr =>
      have h2 : ∀ l : List (String × Module),
          Module.size.sizeL l = (l.map (fun x => x.2.size)).sum := by
        intro l
        induction l with
        | nil => simp [Module.size.sizeL]
        | cons a r ih => simp [Module.size.sizeL, ih]
      simp [Module.size, Module._modules]
      rw [h2 ms]
      omega
  rw [Nat.add_comm]
  exact Nat.add_lt_add_right (key _) _

/-- `Module.parameters(self)`: the values of `self._parameters`, then the
queue walk seeded with `self.modules()`. -/
def Module.parameters (m : Module) : List Parameter :=
  m._parameters.map (fun e => e.2) ++ pLoop m.modules

/-- `Module.add_parameter(self, k, v)`: build `Parameter(v, k)` — which
raises `TypeError` when `v` is a `Module` — and only on success store the
fresh parameter in `self._parameters[k]` (regardless of `v`'s
classification) and return it; on the raise nothing is stored. -/
def Module.add_parameter (m : Module) (k : String) (v : Value) :
    Except String (Module × Parameter) :=
  match Parameter.init v (some k) with
  | .error e => .error e
  | .ok val =>
    .ok (.mk m.cls m.fields (dictInsert k val m._parameters) m._modules m.training, val)

/-- `Module.__setattr__(self, key, val)`: route by `isinstance`:
a `Parameter` goes to `self._parameters[key]`, a `Module` to
`self._modules[key]`, anything else becomes a plain attribute. -/
def Module.setattr (m : Module) (key : String) (val : Value) : Module :=
  match val with
  | .ofParameter p => .mk m.cls m.fields (dictInsert key p m._parameters) m._modules m.training
  | .ofModule c => .mk m.cls m.fields m._parameters (dictInsert key c m._modules) m.training
  | v => .mk m.cls (dictInsert key v m.fields) m._parameters m._modules m.training

/-- Attribute read on a `Module`.  Python resolves a plain instance
attribute first; only when that fails is `Module.__getattr__` invoked,
which checks `self._parameters`, then `self._modules`, and returns `None`
(modelled `none`) when the key is found nowhere. -/
def Module.getattr (m : Module) (key : String) : Option Value :=
  match dictGet key m.fields with
  | some v => some v
  | none =>
    match dictGet key m._parameters with
    | some p => some (.ofParameter p)
    | none =>
      match dictGet key m._modules with
      | some c => some (.ofModule c)
      | none => none

/-- The order in which the queue loop of `Module.named_parameters`
dequeues (accumulated-prefix, module) pairs. -/
def bfsQ (q : List (String × Module)) : List (String × Module) :=
  match q with
  | [] => []
  | entry :: rest =>
    entry :: bfsQ (rest ++ entry.2.named_children.map (fun e => (entry.1 ++ "." ++ e.1, e.2)))
termination_by sumSizesN q
decreasing_by
  simp [sumSizesN, Module.named_children, Function.comp_def]
  have key : ∀ mm : Module, ((mm._modules.map (fun x => x.2.size)).sum) < mm.size := by
    intro mm
    cases mm with
    | mk c f ps ms tr =>
      have h2 : ∀ l : List (String × Module),
          Module.size.sizeL l = (l.map (fun x => x.2.size)).sum := by
        intro l
        induction l with
        | nil => simp [Module.size.sizeL]
        | cons a r ih => simp [Module.size.sizeL, ih]
      simp [Module.size, Module._modules]
      rw [h2 ms]
      omega
  rw [Nat.add_comm]
  exact Nat.add_lt_add_right (key _) _

/-- One queue-expansion step on prefixed nodes: all children of the given
nodes, each keyed by the parent prefix extended with a dot and the child's
local name. -/
def stepLevelS (q : List (String × Module)) : List (String × Module) :=
  q.flatMap (fun e => e.2.named_children.map (fun c => (e.1 ++ "." ++ c.1, c.2)))

/-- Dot-join a qualified path of local names. -/
def dotJoin : List String → String
  | [] => ""
  | [s] => s
  | s :: rest => s ++ "." ++ dotJoin rest

/-- One breadth-first level step, specification side: the next level holds
every child of the current level's nodes, carrying its path of local names
from the root. -/
def levelStep (q : List (List String × Module)) : List (List String × Module) :=
  q.flatMap (fun e => e.2.named_children.map (fun c => (e.1 ++ [c.1], c.2)))

/-- The parameter entries contributed by one level of nodes: for each node
of the level, its own parameter items in insertion order, each keyed by
the dot-joined qualified path from the root to the parameter. -/
def levelParams (q : List (List String × Module)) : List (String × Parameter) :=
  q.flatMap (fun e => e.2._parameters.map (fun pe => (dotJoin (e.1 ++ [pe.1]), pe.2)))

/-- `named_parameters` as the specification words it: level 0 is the
module itself (whose parameters are keyed by their bare local names, since
their path is the one-element path), then level 1 holds all direct
children, level 2 their children, and so on; the result lists every
level's parameter entries in level order.  `m.size + 1` levels always
exhaust a tree of `m.size` nodes. -/
def specNamedParameters (m : Module) : List (String × Parameter) :=
  (List.range (m.size + 1)).flatMap (fun k => levelParams (levelStep^[k] [([], m)]))

/-- Python `s.split("\n")` on a string modelled as a character list. -/
def splitNL : List Char → List (List Char)
  | [] => [[]]
  | c :: rest =>
    if c = '\n' then [] :: splitNL rest
    else
      match splitNL rest with
      | [] => [[c]]
      | l :: ls => (c :: l) :: ls

/-- Python `sep.join(parts)`. -/
def joinStr (sep : List Char) : List (List Char) → List Char
  | [] => []
  | [l] => l
  | l :: ls => l ++ sep ++ joinStr sep ls

/-- `_addindent(s_, numSpaces)` from `Module.__repr__`: split on newlines;
a single-line string is returned unchanged; otherwise every line after the
first is prefixed with `numSpaces` spaces and the lines are rejoined. -/
def _addindent (s : List Char) (numSpaces : Nat) : List Char :=
  match splitNL s with
  | [] => s
  | [_] => s
  | first :: rest =>
    first ++ '\n' :: joinStr ['\n'] (rest.map (fun line => List.replicate numSpaces ' ' ++ line))

/-- `Module.__repr__`: `child_lines` holds, for each `_modules` item,
`"(" + key + "): " + _addindent(repr(module), 2)`; with children the
result is `cls ++ "(" ++ "\n  " ++ "\n  ".join(child_lines) ++ "\n" ++ ")"`,
without children it is `cls ++ "()"`. -/
def Module.reprChars : Module → List Char
  | .mk cls _ _ ms _ =>
    let child_lines := childLines ms
    let main0 := cls.toList ++ ['(']
    let main1 :=
      if child_lines.isEmpty then main0
      else main0 ++ ('\n' :: ' ' :: ' ' :: joinStr ['\n', ' ', ' '] child_lines) ++ ['\n']
    main1 ++ [')']
where childLines : List (String × Module) → List (List Char)
  | [] => []
  | e :: rest =>
    ('(' :: e.1.toList ++ ')' :: ':' :: ' ' :: _addindent (e.2.reprChars) 2) :: childLines rest

/-- Every class name and child key in the tree is newline-free (true of
any real Python identifier). -/
def Module.namesClean : Module → Bool
  | .mk cls _ _ ms _ => !(cls.toList.contains '\n') && cleanL ms
where cleanL : List (String × Module) → Bool
  | [] => true
  | e :: rest => !(e.1.toList.contains '\n') && e.2.namesClean && cleanL rest

/-- The rendering as the specification words it, line by line: a module
with no children is the single line `TypeName()`; otherwise the line
`TypeName(`, then for each child in insertion order its block — the line
`(localName): ` followed by the first line of the child's own rendering,
then every line of that rendering after its first indented by two
additional spaces, the whole block placed at the two-space child indent —
and finally the line `)`. -/
def specRenderLines : Module → List (List Char)
  | .mk cls _ _ ms _ =>
    if ms.isEmpty then [cls.toList ++ ['(', ')']]
    else (cls.toList ++ ['(']) :: (childBlocks ms ++ [[')']])
where childBlocks : List (String × Module) → List (List Char)
  | [] => []
  | e :: rest =>
    (match specRenderLines e.2 with
     | [] => []
     | l0 :: ltail =>
       (' ' :: ' ' :: '(' :: e.1.toList ++ ')' :: ':' :: ' ' :: l0)
         :: ltail.map (fun l => ' ' :: ' ' :: l))
      ++ childBlocks rest

/-- The element loop of `operators.zipWith`'s inner `apply`:
`for e1, e2 in zip(ls1, ls2): new_ls.append(fn(e1, e2))`. -/
def zipLoop (fn : α → α → α) : List α → List α → List α
  | e1 :: l1, e2 :: l2 => fn e1 e2 :: zipLoop fn l1 l2
  | _, _ => []

/-- `operators.zipWith(fn)` applied to two lists: `assert len(ls1) ==
len(ls2)` (an `AssertionError` on unequal lengths, modelled as
`Except.error`), then the zip loop.  Element arithmetic is irrelevant to
the combinator, so the element type is kept abstract. -/
def zipWith (fn : α → α → α) (ls1 ls2 : List α) : Except String (List α) :=
  if ls1.length = ls2.length then .ok (zipLoop fn ls1 ls2)
  else .error "Need to be same size"

/-- The example tree of claim C1: a child module holding the parameter
`p` with plain value `5`, exactly the object stored by `Parameter(5, "p")`
(whose construction succeeds: a plain `5` has no `requires_grad_`). -/
def c1Sub : Module :=
  .mk "Sub" [] [("p", Parameter.mk (.plain 5 false false none) (some "p"))] [] true

/-- The example root of claim C1: one child bound under the name `sub`. -/
def c1Root : Module :=
  .mk "Root" [] [] [("sub", c1Sub)] true

/-- Leaf `C` of the 3-level example tree of claim C2. -/
def c2C : Module := .mk "C" [] [] [] true

/-- Node `A` of the 3-level example tree of claim C2 (one child `C`). -/
def c2A : Module := .mk "A" [] [] [("c", c2C)] true

/-- Node `B` of the 3-level example tree of claim C2. -/
def c2B : Module := .mk "B" [] [] [] true

/-- Root of the 3-level example tree of claim C2: children `A` and `B`. -/
def c2Root : Module := .mk "Root" [] [] [("a", c2A), ("b", c2B)] true

/-- The `Leaf` module of the rendering example of claim C8. -/
def c8Leaf : Module := .mk "Leaf" [] [] [] true

/-- The `Root` module of the rendering example of claim C8: one child
bound under the name `inner`. -/
def c8Root : Module := .mk "Root" [] [] [("inner", c8Leaf)] true

/-- A module used to witness claim C7: two parameters `a`, `k` and two
children `x`, `k`. -/
def c7M : Module :=
  .mk "M" []
    [("a", Parameter.mk (.plain 1 false false none) none),
     ("k", Parameter.mk (.plain 2 false false none) none)]
    [("x", .mk "X" [] [] [] true), ("k", .mk "K" [] [] [] true)] true

/-- The replacement parameter of the C7 witness. -/
def c7P : Parameter := Parameter.mk (.plain 9 false false none) none

/-- The replacement child module of the C7 witness. -/
def c7C : Module := .mk "K2" [] [] [] true

theorem size_pos (m : Module) : 0 < m.size := by
  cases m with
  | mk c f ps ms tr => simp [Module.size]

theorem sizeL_eq (l : List (String × Module)) :
    Module.size.sizeL l = sumSizesN l := by
  induction l with
  | nil => simp [Module.size.sizeL, sumSizesN]
  | cons e r ih => simp [Module.size.sizeL, sumSizesN, ih]

theorem size_eq (m : Module) : m.size = 1 + sumSizesN m._modules := by
  cases m with
  | mk c f ps ms tr => simp [Module.size, Module._modules, sizeL_eq]

theorem dictGet_dictInsert_self (k : String) (v : α) (d : List (String × α)) :
    dictGet k (dictInsert k v d) = some v := by
  induction d with
  | nil => simp [dictInsert, dictGet]
  | cons e r ih =>
    by_cases h : e.1 = k <;> simp [dictInsert, dictGet, h, ih]

theorem setattr_param_fields (m : Module) (key : String) (p : Parameter) :
    (m.setattr key (.ofParameter p)).fields = m.fields := by
  simp [Module.setattr, Module.fields]

theorem setattr_param_parameters (m : Module) (key : String) (p : Parameter) :
    (m.setattr key (.ofParameter p))._parameters = dictInsert key p m._parameters := by
  simp [Module.setattr, Module._parameters]

theorem setattr_param_modules (m : Module) (key : String) (p : Parameter) :
    (m.setattr key (.ofParameter p))._modules = m._modules := by
  simp [Module.setattr, Module._modules]

theorem setattr_module_parameters (m : Module) (key : String) (c : Module) :
    (m.setattr key (.ofModule c))._parameters = m._parameters := by
  simp [Module.setattr, Module._parameters]

theorem setattr_module_modules (m : Module) (key : String) (c : Module) :
    (m.setattr key (.ofModule c))._modules = dictInsert key c m._modules := by
  simp [Module.setattr, Module._modules]

/-- C3: binding a local name to a Module and later binding the same name
to a Parameter (or vice versa) leaves the name present in both the
children map and the parameters map: `__setattr__` only writes into the
map matching the new value's classification and never removes the
same-named entry from the other map. -/
theorem C3_cross_rebinding_keeps_both_entries (m : Module) (key : String)
    (c : Module) (p : Parameter) :
    (dictContains key (((m.setattr key (.ofModule c)).setattr key (.ofParameter p))._modules) = true
      ∧ dictContains key (((m.setattr key (.ofModule c)).setattr key (.ofParameter p))._parameters) = true)
    ∧ (dictContains key (((m.setattr key (.ofParameter p)).setattr key (.ofModule c))._modules) = true
      ∧ dictContains key (((m.setattr key (.ofParameter p)).setattr key (.ofModule c))._parameters) = true) := by
  refine ⟨⟨?_, ?_⟩, ⟨?_, ?_⟩⟩
  · rw [setattr_param_modules, setattr_module_modules]
    simp [dictContains, dictGet_dictInsert_self]
  · rw [setattr_param_parameters]
    simp [dictContains, dictGet_dictInsert_self]
  · rw [setattr_module_modules]
    simp [dictContains, dictGet_dictInsert_self]
  · rw [setattr_module_parameters, setattr_param_parameters]
    simp [dictContains, dictGet_dictInsert_self]

/-- C5: attribute read searches plain fields first, then the parameters
map, then the children map, returning the first match; a name found in
none of the three yields the explicit absent result `none` (Python
`None`) rather than an error. -/
theorem C5_getattr_three_tier_lookup (m : Module) (key : String) :
    (∀ v : Value, dictGet key m.fields = some v → m.getattr key = some v)
    ∧ (dictGet key m.fields = none →
        ∀ p : Parameter, dictGet key m._parameters = some p →
          m.getattr key = some (.ofParameter p))
    ∧ (dictGet key m.fields = none → dictGet key m._parameters = none →
        ∀ c : Module, dictGet key m._modules = some c →
          m.getattr key = some (.ofModule c))
    ∧ (dictGet key m.fields = none → dictGet key m._parameters = none →
        dictGet key m._modules = none → m.getattr key = none) := by
  refine ⟨?_, ?_, ?_, ?_⟩
  · intro v hv
    simp [Module.getattr, hv]
  · intro hf p hp
    simp [Module.getattr, hf, hp]
  · intro hf hp c hc
    simp [Module.getattr, hf, hp, hc]
  · intro hf hp hc
    simp [Module.getattr, hf, hp, hc]

/-- Witness for C5 at concrete modules exercising all four tiers. -/
theorem C5_getattr_three_tier_lookup_witness :
    ((Module.mk "M" [("x", Value.plain 1 false false none)]
        [("x", Parameter.mk (Value.plain 2 false false none) none)] [] true).getattr "x"
      = some (Value.plain 1 false false none))
    ∧ ((Module.mk "M" [] [("x", Parameter.mk (Value.plain 2 false false none) none)] [] true).getattr "x"
      = some (.ofParameter (Parameter.mk (Value.plain 2 false false none) none)))
    ∧ ((Module.mk "M" [] [] [("x", Module.mk "C" [] [] [] true)] true).getattr "x"
      = some (.ofModule (Module.mk "C" [] [] [] true)))
    ∧ ((Module.mk "M" [] [] [] true).getattr "x" = none) := by
  refine ⟨?_, ?_, ?_, ?_⟩
  · exact (C5_getattr_three_tier_lookup
      (Module.mk "M" [("x", Value.plain 1 false false none)]
        [("x", Parameter.mk (Value.plain 2 false false none) none)] [] true) "x").1
      (Value.plain 1 false false none) (by simp [Module.fields, dictGet])
  · exact (C5_getattr_three_tier_lookup
      (Module.mk "M" [] [("x", Parameter.mk (Value.plain 2 false false none) none)] [] true) "x").2.1
      (by simp [Module.fields, dictGet])
      (Parameter.mk (Value.plain 2 false false none) none)
      (by simp [Module._parameters, dictGet])
  · exact (C5_getattr_three_tier_lookup
      (Module.mk "M" [] [] [("x", Module.mk "C" [] [] [] true)] true) "x").2.2.1
      (by simp [Module.fields, dictGet])
      (by simp [Module._parameters, dictGet])
      (Module.mk "C" [] [] [] true)
      (by simp [Module._modules, dictGet])
  · exact (C5_getattr_three_tier_lookup (Module.mk "M" [] [] [] true) "x").2.2.2
      (by simp [Module.fields, dictGet])
      (by simp [Module._parameters, dictGet])
      (by simp [Module._modules, dictGet])

theorem init_plain_true (d : Int) (r : Bool) (n : Option String) (nm : Option String) :
    Parameter.init (.plain d true r n) nm
      = .ok (.mk (.plain d true true (if optTruthy nm then some (nm.getD "") else n)) nm) := by
  by_cases hs : optTruthy nm = true <;>
    simp [Parameter.init, Value.hasRequiresGrad, Value.requires_grad_, Value.setNameAttr, hs]

theorem init_plain_false (d : Int) (r : Bool) (n : Option String) (nm : Option String) :
    Parameter.init (.plain d false r n) nm = .ok (.mk (.plain d false r n) nm) := by
  simp [Parameter.init, Value.hasRequiresGrad]

theorem init_module (mm : Module) (nm : Option String) :
    Parameter.init (.ofModule mm) nm = .error "TypeError" := rfl

theorem init_param (pp : Parameter) (nm : Option String) :
    Parameter.init (.ofParameter pp) nm = .ok (.mk (.ofParameter pp) nm) := rfl

theorem update_plain_true (p : Parameter) (d : Int) (r : Bool) (n : Option String) :
    p.update (.plain d true r n)
      = (.mk (.plain d true true (if optTruthy p.name then some (p.name.getD "") else n))
          p.name, none) := by
  by_cases hs : optTruthy p.name = true <;>
    simp [Parameter.update, Value.hasRequiresGrad, Value.requires_grad_, Value.setNameAttr, hs]

theorem update_plain_false (p : Parameter) (d : Int) (r : Bool) (n : Option String) :
    p.update (.plain d false r n) = (.mk (.plain d false r n) p.name, none) := by
  simp [Parameter.update, Value.hasRequiresGrad]

theorem update_module (p : Parameter) (mm : Module) :
    p.update (.ofModule mm) = (.mk (.ofModule mm) p.name, some "TypeError") := rfl

theorem update_param (p : Parameter) (pp : Parameter) :
    p.update (.ofParameter pp) = (.mk (.ofParameter pp) p.name, none) := rfl

/-- C10 counterexample: `add_parameter("w", module_value)` does not store
a Parameter — `Parameter(v, k)` raises `TypeError`, because the lenient
`Module.__getattr__` makes `hasattr(v, "requires_grad_")` report `True`
while the attribute's value `None` is not callable. -/
theorem C10_counterexample :
    (Module.mk "M" [] [] [] true).add_parameter "w"
        (.ofModule (Module.mk "C" [] [] [] true)) = Except.error "TypeError" := rfl

/-- C10 (amended): for every value `v` that is not a `Module` — plain or
an already-constructed `Parameter` — `add_parameter(k, v)` builds
`Parameter(v, k)` and stores it in the parameters map under `k`, leaving
the children map and the plain fields untouched (the `isinstance` routing
of `__setattr__` plays no part); for a `Module` value the nested
`Parameter(v, k)` construction raises `TypeError` and nothing is
stored. -/
theorem C10_add_parameter_no_routing (m : Module) (k : String) (v : Value) :
    ((∀ mm : Module, v ≠ .ofModule mm) →
      ∃ val : Parameter, Parameter.init v (some k) = .ok val
        ∧ m.add_parameter k v = .ok
            (Module.mk m.cls m.fields (dictInsert k val m._parameters) m._modules m.training,
              val)
        ∧ dictGet k (dictInsert k val m._parameters) = some val)
    ∧ (∀ mm : Module, v = .ofModule mm → m.add_parameter k v = .error "TypeError") := by
  constructor
  · intro hv
    have hok : ∃ val : Parameter, Parameter.init v (some k) = .ok val := by
      cases v with
      | plain d h r n =>
        cases h with
        | false => exact ⟨_, init_plain_false d r n (some k)⟩
        | true => exact ⟨_, init_plain_true d r n (some k)⟩
      | ofModule mm => exact absurd rfl (hv mm)
      | ofParameter pp => exact ⟨_, init_param pp (some k)⟩
    obtain ⟨val, hval⟩ := hok
    refine ⟨val, hval, ?_, dictGet_dictInsert_self k val m._parameters⟩
    rw [Module.add_parameter, hval]
  · intro mm hm
    subst hm
    rw [Module.add_parameter, init_module]

/-- Witness for C10: a Parameter-classified value is stored under the
key, a Module-classified value makes `add_parameter` fail. -/
theorem C10_add_parameter_no_routing_witness :
    (∃ val : Parameter,
        Parameter.init (.ofParameter (Parameter.mk (.plain 3 false false none) none))
            (some "w") = .ok val
        ∧ (Module.mk "M" [] [] [] true).add_parameter "w"
              (.ofParameter (Parameter.mk (.plain 3 false false none) none))
            = .ok (Module.mk "M" [] (dictInsert "w" val []) [] true, val)
        ∧ dictGet "w" (dictInsert "w" val []) = some val)
    ∧ (Module.mk "M" [] [] [] true).add_parameter "w"
          (.ofModule (Module.mk "C" [] [] [] true)) = Except.error "TypeError" := by
  constructor
  · exact (C10_add_parameter_no_routing (Module.mk "M" [] [] [] true) "w"
      (.ofParameter (Parameter.mk (.plain 3 false false none) none))).1
      (by intro mm hm; cases hm)
  · exact (C10_add_parameter_no_routing (Module.mk "M" [] [] [] true) "w"
      (.ofModule (Module.mk "C" [] [] [] true))).2 (Module.mk "C" [] [] [] true) rfl

/-- C4 counterexample, refuting two parts of the claim as stated.  First,
a payload without the "mark trainable" capability: construction succeeds,
the Parameter's name is set to `"w"`, yet the value's own name attribute
is not assigned, because `Parameter.__init__` only assigns it inside the
`hasattr(x, "requires_grad_")` branch.  Second, construction is not
failure-free: for a `Module` payload the lenient `__getattr__` makes
`hasattr` report the capability, and calling the returned `None` raises
`TypeError`. -/
theorem C4_counterexample :
    (Parameter.init (Value.plain 0 false false none) (some "w")
        = Except.ok (Parameter.mk (Value.plain 0 false false none) (some "w")))
    ∧ (Parameter.mk (Value.plain 0 false false none) (some "w")).name = some "w"
    ∧ (Parameter.mk (Value.plain 0 false false none) (some "w")).value.nameAttr ≠ some "w"
    ∧ Parameter.init (Value.ofModule (Module.mk "M" [] [] [] true)) (some "w")
        = Except.error "TypeError" := by
  refine ⟨rfl, rfl, ?_, rfl⟩
  simp [Parameter.value, Value.nameAttr]

/-- C4 (amended): after every successful construction and update, if the
wrapped value supports the "mark trainable" capability then that
capability has been invoked with `true`, and — within that capability
branch — if the Parameter's name is set (truthy) it has been assigned
into the value's own name field; the stored name is preserved.
Construction and update raise `TypeError` exactly when the payload is a
`Module` (whose lenient attribute lookup makes `hasattr` succeed while
the attribute's value is not callable) and never fail for any other
payload; a failing `update` has nevertheless already replaced the stored
value. -/
theorem C4_parameter_invariant (x : Value) (nm : Option String)
    (p : Parameter) (y : Value) :
    ((∀ q : Parameter, Parameter.init x nm = .ok q →
        (x.hasRequiresGrad = true → q.value.rgFlag = true)
        ∧ (x.hasRequiresGrad = true → optTruthy nm = true → q.value.nameAttr = nm)
        ∧ q.name = nm)
      ∧ ((∃ e, Parameter.init x nm = .error e) ↔ ∃ mm : Module, x = .ofModule mm))
    ∧ (((p.update y).2 = none →
        (y.hasRequiresGrad = true → (p.update y).1.value.rgFlag = true)
        ∧ (y.hasRequiresGrad = true → optTruthy p.name = true →
            (p.update y).1.value.nameAttr = p.name)
        ∧ (p.update y).1.name = p.name)
      ∧ (((p.update y).2 ≠ none) ↔ ∃ mm : Module, y = .ofModule mm)
      ∧ (∀ e, (p.update y).2 = some e → (p.update y).1 = .mk y p.name)) := by
  refine ⟨⟨?_, ?_⟩, ?_, ?_, ?_⟩
  · intro q hq
    cases x with
    | plain d h r n =>
      cases h with
      | false =>
        rw [init_plain_false] at hq
        simp only [Except.ok.injEq] at hq
        subst hq
        refine ⟨?_, ?_, rfl⟩
        · intro habs
          simp [Value.hasRequiresGrad] at habs
        · intro habs _
          simp [Value.hasRequiresGrad] at habs
      | true =>
        rw [init_plain_true] at hq
        simp only [Except.ok.injEq] at hq
        subst hq
        refine ⟨?_, ?_, rfl⟩
        · intro _
          simp [Parameter.value, Value.rgFlag]
        · intro _ hs
          simp only [Parameter.value, Value.nameAttr, hs, if_true]
          cases nm with
          | none => simp [optTruthy] at hs
          | some str => simp [Option.getD]
    | ofModule mm =>
      rw [init_module] at hq
      simp at hq
    | ofParameter pp =>
      rw [init_param] at hq
      simp only [Except.ok.injEq] at hq
      subst hq
      refine ⟨?_, ?_, rfl⟩
      · intro habs
        simp [Value.hasRequiresGrad] at habs
      · intro habs _
        simp [Value.hasRequiresGrad] at habs
  · constructor
    · rintro ⟨e, he⟩
      cases x with
      | plain d h r n =>
        cases h with
        | false => rw [init_plain_false] at he; simp at he
        | true => rw [init_plain_true] at he; simp at he
      | ofModule mm => exact ⟨mm, rfl⟩
      | ofParameter pp => rw [init_param] at he; simp at he
    · rintro ⟨mm, hm⟩
      subst hm
      exact ⟨"TypeError", init_module mm nm⟩
  · intro hnone
    cases y with
    | plain d h r n =>
      cases h with
      | false =>
        rw [update_plain_false]
        refine ⟨?_, ?_, rfl⟩
        · intro habs
          simp [Value.hasRequiresGrad] at habs
        · intro habs _
          simp [Value.hasRequiresGrad] at habs
      | true =>
        rw [update_plain_true]
        refine ⟨?_, ?_, rfl⟩
        · intro _
          simp [Parameter.value, Value.rgFlag]
        · intro _ hs
          simp only [Parameter.value, Value.nameAttr, hs, if_true]
          cases hpn : p.name with
          | none => rw [hpn] at hs; simp [optTruthy] at hs
          | some str => simp [Option.getD]
    | ofModule mm =>
      rw [update_module] at hnone
      simp at hnone
    | ofParameter pp =>
      rw [update_param]
      refine ⟨?_, ?_, rfl⟩
      · intro habs
        simp [Value.hasRequiresGrad] at habs
      · intro habs _
        simp [Value.hasRequiresGrad] at habs
  · constructor
    · intro hne
      cases y with
      | plain d h r n =>
        cases h with
        | false => rw [update_plain_false] at hne; simp at hne
        | true => rw [update_plain_true] at hne; simp at hne
      | ofModule mm => exact ⟨mm, rfl⟩
      | ofParameter pp => rw [update_param] at hne; simp at hne
    · rintro ⟨mm, hm⟩
      subst hm
      rw [update_module]
      simp
  · intro e he
    cases y with
    | plain d h r n =>
      cases h with
      | false => rw [update_plain_false] at he; simp at he
      | true => rw [update_plain_true] at he; simp at he
    | ofModule mm =>
      rw [update_module]
    | ofParameter pp => rw [update_param] at he; simp at he

/-- Witness for C4: a successful construction and update at a
capability-bearing payload with a truthy name, a failing construction at
a Module payload, and a failing update whose value was nevertheless
replaced. -/
theorem C4_parameter_invariant_witness :
    ((Parameter.mk (Value.plain 7 true true (some "w")) (some "w")).value.rgFlag = true
      ∧ (Parameter.mk (Value.plain 7 true true (some "w")) (some "w")).value.nameAttr
          = some "w")
    ∧ (∃ e, Parameter.init (Value.ofModule (Module.mk "M" [] [] [] true)) (some "w")
          = Except.error e)
    ∧ (((Parameter.mk (Value.plain 0 true false none) (some "q")).update
          (Value.plain 1 true false none)).1.value.rgFlag = true
      ∧ ((Parameter.mk (Value.plain 0 true false none) (some "q")).update
          (Value.plain 1 true false none)).1.value.nameAttr = some "q")
    ∧ ((Parameter.mk (Value.plain 0 true false none) (some "q")).update
          (Value.ofModule (Module.mk "M" [] [] [] true))).2 ≠ none
    ∧ ((Parameter.mk (Value.plain 0 true false none) (some "q")).update
          (Value.ofModule (Module.mk "M" [] [] [] true))).1
        = Parameter.mk (Value.ofModule (Module.mk "M" [] [] [] true)) (some "q") := by
  have h1 := C4_parameter_invariant (Value.plain 7 true false none) (some "w")
    (Parameter.mk (Value.plain 0 true false none) (some "q"))
    (Value.plain 1 true false none)
  have h2 := C4_parameter_invariant (Value.ofModule (Module.mk "M" [] [] [] true)) (some "w")
    (Parameter.mk (Value.plain 0 true false none) (some "q"))
    (Value.ofModule (Module.mk "M" [] [] [] true))
  have ha := h1.1.1 (Parameter.mk (Value.plain 7 true true (some "w")) (some "w")) rfl
  have hc := h1.2.1 rfl
  refine ⟨⟨ha.1 rfl, ha.2.1 rfl rfl⟩, ?_, ⟨hc.1 rfl, hc.2.1 rfl rfl⟩, ?_, ?_⟩
  · exact h2.1.2.mpr ⟨Module.mk "M" [] [] [] true, rfl⟩
  · exact h2.2.2.1.mpr ⟨Module.mk "M" [] [] [] true, rfl⟩
  · exact h2.2.2.2 "TypeError" rfl

theorem zipLoop_length (fn : α → α → α) :
    ∀ ls1 ls2 : List α, ls1.length = ls2.length →
      (zipLoop fn ls1 ls2).length = ls1.length := by
  intro ls1
  induction ls1 with
  | nil => intro ls2 h; simp [zipLoop]
  | cons a l ih =>
    intro ls2 h
    cases ls2 with
    | nil => simp at h
    | cons b l2 =>
      simp [zipLoop]
      exact ih l2 (by simpa using h)

theorem zipLoop_getElem (fn : α → α → α) :
    ∀ (ls1 ls2 : List α) (i : Nat) (a b : α),
      ls1[i]? = some a → ls2[i]? = some b →
      (zipLoop fn ls1 ls2)[i]? = some (fn a b) := by
  intro ls1
  induction ls1 with
  | nil => intro ls2 i a b ha hb; simp at ha
  | cons x l ih =>
    intro ls2 i a b ha hb
    cases ls2 with
    | nil => simp at hb
    | cons y l2 =>
      cases i with
      | zero =>
        simp at ha hb
        simp [zipLoop, ha, hb]
      | succ j =>
        simp at ha hb
        simpa [zipLoop] using ih l2 j a b ha hb

/-- C9: `zipWith(fn)` on two lists fails (assertion error) exactly when
the lists have unequal lengths; on equal-length lists it returns, never
failing, the list whose `i`-th element is `fn` of the `i`-th elements of
the inputs. -/
theorem C9_zipWith_equal_length_contract (α : Type) (fn : α → α → α)
    (ls1 ls2 : List α) :
    (ls1.length ≠ ls2.length → ∃ msg, zipWith fn ls1 ls2 = .error msg)
    ∧ (ls1.length = ls2.length →
        ∃ r, zipWith fn ls1 ls2 = .ok r ∧ r.length = ls1.length
          ∧ ∀ (i : Nat) (a b : α), ls1[i]? = some a → ls2[i]? = some b →
              r[i]? = some (fn a b)) := by
  constructor
  · intro hne
    refine ⟨"Need to be same size", ?_⟩
    simp [zipWith, hne]
  · intro heq
    refine ⟨zipLoop fn ls1 ls2, ?_, zipLoop_length fn ls1 ls2 heq, ?_⟩
    · simp [zipWith, heq]
    · intro i a b ha hb
      exact zipLoop_getElem fn ls1 ls2 i a b ha hb

/-- Witness for C9: a length mismatch fails, an equal-length application
computes the pairwise image. -/
theorem C9_zipWith_equal_length_contract_witness :
    (∃ msg, zipWith (fun a b : Int => a + b) [1, 2] [3] = .error msg)
    ∧ (∃ r, zipWith (fun a b : Int => a + b) [1, 2] [3, 4] = .ok r
        ∧ r.length = 2
        ∧ ∀ (i : Nat) (a b : Int),
            ([1, 2] : List Int)[i]? = some a → ([3, 4] : List Int)[i]? = some b →
            r[i]? = some (a + b)) := by
  constructor
  · exact (C9_zipWith_equal_length_contract Int (fun a b => a + b) [1, 2] [3]).1 (by decide)
  · exact (C9_zipWith_equal_length_contract Int (fun a b => a + b) [1, 2] [3, 4]).2 (by decide)

theorem pLoop_map_snd (q : List (String × Module)) :
    pLoop (q.map (fun e => e.2)) = (npLoop q).map (fun e => e.2) := by
  induction q using npLoop.induct with
  | case1 => simp [pLoop, npLoop]
  | case2 entry rest ih =>
    simp only [npLoop, List.map_cons, List.map_append, List.map_map, Function.comp_def]
    rw [pLoop, ← ih]
    simp [Module.modules, Module.named_children, List.map_append, List.map_map,
      Function.comp_def]

/-- C6: `parameters()` returns exactly `named_parameters()` with the
qualified-name component dropped: the same Parameter objects in the same
order, for every tree. -/
theorem C6_parameters_drops_names (m : Module) :
    m.parameters = (m.named_parameters).map (fun e => e.2) := by
  simp only [Module.parameters, Module.named_parameters, List.map_append]
  congr 1
  have h := pLoop_map_snd m.named_children
  rw [← h]
  congr 1

theorem allL_eq (l : List (String × Module)) :
    Module.allNodes.allL l = l.flatMap (fun e => e.2.allNodes) := by
  induction l with
  | nil => simp [Module.allNodes.allL]
  | cons e r ih => simp [Module.allNodes.allL, ih]

theorem setL_eq (b : Bool) (l : List (String × Module)) :
    Module.setModeAll.setL b l = l.map (fun e => (e.1, e.2.setModeAll b)) := by
  induction l with
  | nil => simp [Module.setModeAll.setL]
  | cons e r ih => simp [Module.setModeAll.setL, ih]

theorem allNodes_cons (m : Module) :
    m.allNodes = m :: (m.modules.flatMap Module.allNodes) := by
  cases m with
  | mk c f ps ms tr =>
    simp [Module.allNodes, allL_eq, Module.modules, Module._modules,
      List.flatMap_map, Function.comp_def]

theorem module_strong_ind (P : Module → Prop)
    (step : ∀ m : Module, (∀ c : Module, c.size < m.size → P c) → P m) :
    ∀ m : Module, P m := by
  have H : ∀ (n : Nat) (mm : Module), mm.size ≤ n → P mm := by
    intro n
    induction n with
    | zero =>
      intro mm hm
      exfalso
      have := size_pos mm
      omega
    | succ k ih =>
      intro mm hm
      refine step mm (fun c hc => ih c ?_)
      omega
  intro m
  exact H m.size m le_rfl

theorem mem_size_le (ms : List (String × Module)) (e : String × Module)
    (hm : e ∈ ms) : e.2.size ≤ sumSizesN ms := by
  induction ms with
  | nil => simp at hm
  | cons a r ih =>
    rcases List.mem_cons.mp hm with h | h
    · subst h
      simp [sumSizesN]
    · have := ih h
      simp [sumSizesN] at *
      omega

theorem setModeAll_all_training (b : Bool) :
    ∀ m : Module, ((m.setModeAll b).allNodes).all (fun n => n.training == b) = true := by
  refine module_strong_ind _ ?_
  intro m ih
  cases m with
  | mk c f ps ms tr =>
    rw [List.all_eq_true]
    intro n hn
    simp only [Module.setModeAll, setL_eq] at hn
    rw [allNodes_cons] at hn
    simp only [Module.modules, Module._modules, List.map_map, Function.comp_def,
      List.mem_cons, List.mem_flatMap, List.mem_map] at hn
    rcases hn with hn | ⟨x, ⟨e, he, hx⟩, hnx⟩
    · subst hn
      simp [Module.training]
    · subst hx
      have hlt : e.2.size < (Module.mk c f ps ms tr).size := by
        have h1 := mem_size_le ms e he
        rw [size_eq (Module.mk c f ps ms tr)]
        simp only [Module._modules]
        omega
      have h2 := ih e.2 hlt
      rw [List.all_eq_true] at h2
      exact h2 n hnx

theorem bfsVisit_perm :
    ∀ q : List Module, (bfsVisit q).Perm (q.flatMap Module.allNodes) := by
  intro q
  induction q using bfsVisit.induct with
  | case1 => simp [bfsVisit]
  | case2 mChild rest ih =>
    rw [bfsVisit]
    rw [List.flatMap_append] at ih
    rw [List.flatMap_cons, allNodes_cons, List.cons_append]
    exact List.Perm.cons mChild (ih.trans List.perm_append_comm)

/-- C2: `train()` sets the mode flag of the module and of every reachable
descendant to `true` and `eval()` sets them all to `false`; the FIFO-queue
breadth-first walk seeded with the direct children visits every reachable
module exactly once (the visit sequence is a permutation of the node
list; acyclicity holds by construction of the tree type); and on the
3-level example root → A, B with A → C, `root.train()` followed by
`root.eval()` leaves `training = false` on all four nodes. -/
theorem C2_train_eval_breadth_first :
    (∀ m : Module, ((Module.train m).allNodes).all (fun n => n.training == true) = true)
    ∧ (∀ m : Module, ((Module.eval m).allNodes).all (fun n => n.training == false) = true)
    ∧ (∀ m : Module, (m :: bfsVisit m.modules).Perm m.allNodes)
    ∧ (((c2Root.train).eval).allNodes.map Module.training = [false, false, false, false]) := by
  refine ⟨?_, ?_, ?_, ?_⟩
  · intro m
    exact setModeAll_all_training true m
  · intro m
    exact setModeAll_all_training false m
  · intro m
    rw [allNodes_cons]
    exact List.Perm.cons m (bfsVisit_perm m.modules)
  · rfl

theorem list_set_of_getElem (l : List α) :
    ∀ (i : Nat) (h : i < l.length) (a : α), l.get ⟨i, h⟩ = a → l.set i a = l := by
  induction l with
  | nil => intro i h a ha; simp at h
  | cons x xs ih =>
    intro i h a ha
    cases i with
    | zero =>
      simp at ha
      simp [ha]
    | succ j =>
      simp at ha
      have hj : j < xs.length := by
        simp at h
        omega
      simp [List.set]
      exact ih j hj a ha

theorem dictInsert_of_mem (k : String) (v : α) :
    ∀ d : List (String × α), k ∈ d.map (fun e => e.1) →
      ∃ i, ∃ h : i < d.length,
        (d.get ⟨i, h⟩).1 = k ∧ dictInsert k v d = d.set i (k, v) := by
  intro d
  induction d with
  | nil => intro h; simp at h
  | cons e r ih =>
    intro hmem
    by_cases he : e.1 = k
    · refine ⟨0, by simp, by simpa using he, ?_⟩
      simp [dictInsert, he]
    · have hmem2 : k ∈ r.map (fun x => x.1) := by
        simp at hmem
        rcases hmem with h | h
        · exact absurd h.symm he
        · simpa using h
      obtain ⟨i, hi, hk, heq⟩ := ih hmem2
      refine ⟨i + 1, by simp; omega, by simpa using hk, ?_⟩
      simp [dictInsert, he, heq]

/-- C7: rebinding a local name that already exists in the parameters map
(resp. the children map) replaces the old entry in place at its original
insertion position — the rebound entry sits at the index where the name
already was, every other entry is unchanged, and the name sequence of
`named_parameters()` is unchanged. -/
theorem C7_rebinding_replaces_in_place (m : Module) (key : String)
    (p : Parameter) (c : Module) :
    (key ∈ m._parameters.map (fun e => e.1) →
      ∃ i, ∃ h : i < m.named_parameters.length,
        (m.named_parameters.get ⟨i, h⟩).1 = key
        ∧ (m.setattr key (.ofParameter p)).named_parameters
            = m.named_parameters.set i (key, p)
        ∧ ((m.setattr key (.ofParameter p)).named_parameters).map (fun e => e.1)
            = (m.named_parameters).map (fun e => e.1))
    ∧ (key ∈ m._modules.map (fun e => e.1) →
      ∃ j, ∃ h : j < m._modules.length,
        (m._modules.get ⟨j, h⟩).1 = key
        ∧ (m.setattr key (.ofModule c))._modules = m._modules.set j (key, c)) := by
  constructor
  · intro hmem
    obtain ⟨i, hi, hk, heq⟩ := dictInsert_of_mem key p m._parameters hmem
    rw [List.get_eq_getElem] at hk
    have hnc : (m.setattr key (.ofParameter p)).named_children = m.named_children := by
      simp [Module.named_children, setattr_param_modules]
    have hset : (m.setattr key (.ofParameter p)).named_parameters
        = m.named_parameters.set i (key, p) := by
      simp only [Module.named_parameters, hnc, setattr_param_parameters, heq]
      rw [List.set_append, if_pos hi]
    have hlen : i < m.named_parameters.length := by
      simp only [Module.named_parameters, List.length_append]
      omega
    have hget : (m.named_parameters.get ⟨i, hlen⟩).1 = key := by
      rw [List.get_eq_getElem]
      simp only [Module.named_parameters]
      rw [List.getElem_append_left hi]
      exact hk
    refine ⟨i, hlen, hget, hset, ?_⟩
    rw [hset, List.map_set]
    apply list_set_of_getElem _ i (by simpa using hlen)
    rw [List.get_eq_getElem, List.getElem_map]
    rw [List.get_eq_getElem] at hget
    exact hget
  · intro hmem
    obtain ⟨j, hj, hk, heq⟩ := dictInsert_of_mem key c m._modules hmem
    exact ⟨j, hj, hk, by rw [setattr_module_modules, heq]⟩

/-- Witness for C7 at a concrete module with both maps containing the
rebound key `k`. -/
theorem C7_rebinding_replaces_in_place_witness :
    (∃ i, ∃ h : i < c7M.named_parameters.length,
      (c7M.named_parameters.get ⟨i, h⟩).1 = "k"
      ∧ (c7M.setattr "k" (.ofParameter c7P)).named_parameters
          = c7M.named_parameters.set i ("k", c7P)
      ∧ ((c7M.setattr "k" (.ofParameter c7P)).named_parameters).map (fun e => e.1)
          = (c7M.named_parameters).map (fun e => e.1))
    ∧ (∃ j, ∃ h : j < c7M._modules.length,
      (c7M._modules.get ⟨j, h⟩).1 = "k"
      ∧ (c7M.setattr "k" (.ofModule c7C))._modules = c7M._modules.set j ("k", c7C)) := by
  have h := C7_rebinding_replaces_in_place c7M "k" c7P c7C
  exact ⟨h.1 (by decide), h.2 (by decide)⟩

theorem npLoop_eq_bfsQ (q : List (String × Module)) :
    npLoop q = (bfsQ q).flatMap
      (fun e => e.2._parameters.map (fun pe => (e.1 ++ "." ++ pe.1, pe.2))) := by
  induction q using npLoop.induct with
  | case1 => simp [npLoop, bfsQ]
  | case2 entry rest ih =>
    rw [npLoop, bfsQ, List.flatMap_cons, ih]

theorem stepLevelS_nil : stepLevelS [] = [] := by
  simp [stepLevelS]

theorem bfsQ_append (q : List (String × Module)) :
    ∀ r : List (String × Module), bfsQ (q ++ r) = q ++ bfsQ (r ++ stepLevelS q) := by
  induction q with
  | nil =>
    intro r
    simp [stepLevelS_nil]
  | cons entry q1 ih =>
    intro r
    rw [List.cons_append, bfsQ]
    rw [List.append_assoc, ih]
    have hstep : stepLevelS (entry :: q1)
        = entry.2.named_children.map (fun e => (entry.1 ++ "." ++ e.1, e.2))
          ++ stepLevelS q1 := by
      rw [stepLevelS, stepLevelS, List.flatMap_cons]
    rw [hstep, List.append_assoc]
    rfl

theorem sumSizesN_append (a b : List (String × Module)) :
    sumSizesN (a ++ b) = sumSizesN a + sumSizesN b := by
  simp [sumSizesN]

theorem sumSizesN_rename (nm : String) (l : List (String × Module)) :
    sumSizesN (l.map (fun e => (nm ++ "." ++ e.1, e.2))) = sumSizesN l := by
  simp [sumSizesN, List.map_map, Function.comp_def]

theorem sumSizesN_stepLevelS (q : List (String × Module)) :
    sumSizesN (stepLevelS q) + q.length = sumSizesN q := by
  induction q with
  | nil => simp [stepLevelS_nil, sumSizesN]
  | cons e q1 ih =>
    rw [stepLevelS, List.flatMap_cons, sumSizesN_append]
    have h1 : sumSizesN (e.2.named_children.map (fun c => (e.1 ++ "." ++ c.1, c.2)))
        = sumSizesN e.2.named_children := sumSizesN_rename e.1 e.2.named_children
    have h2 : e.2.size = 1 + sumSizesN e.2.named_children := by
      rw [size_eq]
      rfl
    have h3 : sumSizesN (e :: q1) = e.2.size + sumSizesN q1 := by
      simp [sumSizesN]
    rw [stepLevelS] at ih
    simp only [List.length_cons]
    omega

theorem sumSizesN_eq_zero (q : List (String × Module)) (h : sumSizesN q = 0) :
    q = [] := by
  cases q with
  | nil => rfl
  | cons e r =>
    exfalso
    have h1 := size_pos e.2
    have h2 : sumSizesN (e :: r) = e.2.size + sumSizesN r := by
      simp [sumSizesN]
    omega

theorem iterate_stepLevelS_nil (k : Nat) : stepLevelS^[k] [] = [] :=
  Function.iterate_fixed stepLevelS_nil k

theorem bfsQ_levels :
    ∀ (B : Nat) (q : List (String × Module)), sumSizesN q ≤ B →
      bfsQ q = (List.range B).flatMap (fun k => stepLevelS^[k] q) := by
  intro B
  induction B with
  | zero =>
    intro q hq
    have hq0 : q = [] := sumSizesN_eq_zero q (by omega)
    subst hq0
    simp [bfsQ]
  | succ B ih =>
    intro q hq
    cases q with
    | nil =>
      simp [bfsQ, iterate_stepLevelS_nil]
    | cons e q1 =>
      have hsplit : bfsQ (e :: q1) = (e :: q1) ++ bfsQ (stepLevelS (e :: q1)) := by
        have h := bfsQ_append (e :: q1) []
        simpa using h
      have hle : sumSizesN (stepLevelS (e :: q1)) ≤ B := by
        have h := sumSizesN_stepLevelS (e :: q1)
        simp only [List.length_cons] at h
        omega
      rw [hsplit, ih _ hle]
      rw [List.range_succ_eq_map, List.flatMap_cons, List.flatMap_map]
      rw [Function.iterate_zero_apply]
      congr 1

theorem dotJoin_append_single (x : String) :
    ∀ l : List String, l ≠ [] → dotJoin (l ++ [x]) = dotJoin l ++ "." ++ x := by
  intro l
  induction l with
  | nil => intro h; exact absurd rfl h
  | cons a l2 ih =>
    intro _
    cases l2 with
    | nil => simp [dotJoin]
    | cons b l3 =>
      rw [List.cons_append]
      rw [show dotJoin (a :: (b :: l3 ++ [x])) = a ++ "." ++ dotJoin (b :: l3 ++ [x]) from rfl]
      rw [ih (by simp)]
      rw [show dotJoin (a :: b :: l3) = a ++ "." ++ dotJoin (b :: l3) from rfl]
      simp [String.append_assoc]

theorem stepLevelS_map_dotJoin (q : List (List String × Module))
    (hq : ∀ e ∈ q, e.1 ≠ []) :
    stepLevelS (q.map (fun e => (dotJoin e.1, e.2)))
      = (levelStep q).map (fun e => (dotJoin e.1, e.2)) := by
  induction q with
  | nil => simp [stepLevelS, levelStep]
  | cons e q1 ih =>
    rw [List.map_cons, stepLevelS, List.flatMap_cons]
    rw [levelStep, List.flatMap_cons, List.map_append]
    rw [← stepLevelS, ← levelStep]
    rw [ih (fun x hx => hq x (List.mem_cons_of_mem e hx))]
    congr 1
    rw [List.map_map]
    refine List.map_congr_left ?_
    intro c _
    simp only [Function.comp_def]
    rw [dotJoin_append_single c.1 e.1 (hq e (List.mem_cons_self e q1))]

theorem levelParams_map_dotJoin (q : List (List String × Module))
    (hq : ∀ e ∈ q, e.1 ≠ []) :
    (q.map (fun e => (dotJoin e.1, e.2))).flatMap
        (fun e => e.2._parameters.map (fun pe => (e.1 ++ "." ++ pe.1, pe.2)))
      = levelParams q := by
  rw [levelParams, List.flatMap_map]
  refine List.flatMap_congr ?_
  intro e he
  refine List.map_congr_left ?_
  intro pe _
  rw [dotJoin_append_single pe.1 e.1 (hq e he)]

theorem levelStep_paths_ne_nil (q : List (List String × Module)) :
    ∀ e ∈ levelStep q, e.1 ≠ [] := by
  intro e he
  rw [levelStep, List.mem_flatMap] at he
  obtain ⟨x, _, hx⟩ := he
  rw [List.mem_map] at hx
  obtain ⟨c, _, hc⟩ := hx
  rw [← hc]
  simp

theorem iterate_levelStep_paths_ne_nil (k : Nat) (q : List (List String × Module))
    (hq : ∀ e ∈ q, e.1 ≠ []) : ∀ e ∈ levelStep^[k] q, e.1 ≠ [] := by
  induction k generalizing q with
  | zero =>
    rw [Function.iterate_zero_apply]
    exact hq
  | succ j ih =>
    rw [Function.iterate_succ_apply]
    exact ih (levelStep q) (levelStep_paths_ne_nil q)

theorem iterate_stepLevelS_map_dotJoin (k : Nat) (q : List (List String × Module))
    (hq : ∀ e ∈ q, e.1 ≠ []) :
    stepLevelS^[k] (q.map (fun e => (dotJoin e.1, e.2)))
      = (levelStep^[k] q).map (fun e => (dotJoin e.1, e.2)) := by
  induction k generalizing q with
  | zero =>
    rw [Function.iterate_zero_apply, Function.iterate_zero_apply]
  | succ j ih =>
    rw [Function.iterate_succ_apply, Function.iterate_succ_apply]
    rw [stepLevelS_map_dotJoin q hq]
    exact ih (levelStep q) (levelStep_paths_ne_nil q)

theorem levelStep_root (m : Module) :
    levelStep [([], m)] = m.named_children.map (fun c => ([c.1], c.2)) := by
  simp [levelStep]

theorem map_dotJoin_root (m : Module) :
    (m.named_children.map (fun c => ([c.1], c.2))).map (fun e => (dotJoin e.1, e.2))
      = m.named_children := by
  rw [List.map_map]
  simp [Function.comp_def, dotJoin]

theorem levelParams_root (m : Module) :
    levelParams [([], m)] = m._parameters := by
  simp [levelParams, dotJoin]

theorem named_parameters_eq_spec (m : Module) :
    m.named_parameters = specNamedParameters m := by
  rw [specNamedParameters, List.range_succ_eq_map, List.flatMap_cons, List.flatMap_map]
  rw [Function.iterate_zero_apply, levelParams_root]
  rw [Module.named_parameters]
  congr 1
  rw [npLoop_eq_bfsQ]
  have hB : sumSizesN m.named_children ≤ m.size := by
    have h := size_eq m
    have h2 : sumSizesN m.named_children = sumSizesN m._modules := rfl
    omega
  rw [bfsQ_levels m.size m.named_children hB]
  rw [List.flatMap_assoc]
  refine List.flatMap_congr ?_
  intro k _
  have hnc : m.named_children
      = (levelStep [([], m)]).map (fun e => (dotJoin e.1, e.2)) := by
    rw [levelStep_root, map_dotJoin_root]
  rw [hnc]
  rw [iterate_stepLevelS_map_dotJoin k (levelStep [([], m)])
    (levelStep_paths_ne_nil [([], m)])]
  rw [levelParams_map_dotJoin _
    (iterate_levelStep_paths_ne_nil k (levelStep [([], m)])
      (levelStep_paths_ne_nil [([], m)]))]
  rw [Function.iterate_succ_apply]

/-- C1: for every tree, `named_parameters()` lists first this module's own
parameter entries under their bare local names in insertion order, then
the parameters of the descendants in breadth-first level order, each
keyed by the dot-joined qualified path from the root (as formalised by
`specNamedParameters`); on the example root with child `sub` holding
parameter `p` of value 5 it yields exactly the single pair
`("sub.p", Parameter(5, "p"))`. -/
theorem C1_named_parameters_level_order :
    (∀ m : Module, m.named_parameters = specNamedParameters m)
    ∧ c1Root.named_parameters
        = [("sub.p", Parameter.mk (.plain 5 false false none) (some "p"))] := by
  constructor
  · exact named_parameters_eq_spec
  · simp [Module.named_parameters, npLoop, c1Root, c1Sub, Module.named_children,
      Module._modules, Module._parameters]

theorem splitNL_of_not_mem :
    ∀ l : List Char, ('\n' : Char) ∉ l → splitNL l = [l] := by
  intro l
  induction l with
  | nil => intro _; rfl
  | cons c r ih =>
    intro h
    have hc : ¬ (c = ('\n' : Char)) := by
      intro hh
      exact h (hh ▸ List.mem_cons_self c r)
    have hr : ('\n' : Char) ∉ r := fun hh => h (List.mem_cons_of_mem c hh)
    simp [splitNL, hc, ih hr]

theorem splitNL_append_newline :
    ∀ l s : List Char, ('\n' : Char) ∉ l →
      splitNL (l ++ '\n' :: s) = l :: splitNL s := by
  intro l
  induction l with
  | nil =>
    intro s _
    simp [splitNL]
  | cons c r ih =>
    intro s h
    have hc : ¬ (c = ('\n' : Char)) := by
      intro hh
      exact h (hh ▸ List.mem_cons_self c r)
    have hr : ('\n' : Char) ∉ r := fun hh => h (List.mem_cons_of_mem c hh)
    rw [List.cons_append]
    simp [splitNL, hc, ih s hr]

theorem joinStr_cons_ne (sep : List Char) (l : List Char) (L : List (List Char))
    (h : L ≠ []) : joinStr sep (l :: L) = l ++ sep ++ joinStr sep L := by
  cases L with
  | nil => exact absurd rfl h
  | cons x xs => rfl

theorem splitNL_joinStr :
    ∀ L : List (List Char), L ≠ [] → (∀ l ∈ L, ('\n' : Char) ∉ l) →
      splitNL (joinStr ['\n'] L) = L := by
  intro L
  induction L with
  | nil => intro hne _; exact absurd rfl hne
  | cons l L2 ih =>
    intro _ h
    cases L2 with
    | nil => exact splitNL_of_not_mem l (h l (List.mem_cons_self l []))
    | cons x xs =>
      rw [joinStr_cons_ne _ _ _ (by simp)]
      rw [List.append_assoc, List.singleton_append]
      rw [splitNL_append_newline _ _ (h l (List.mem_cons_self l (x :: xs)))]
      rw [ih (by simp) (fun y hy => h y (List.mem_cons_of_mem l hy))]

theorem joinStr_append_nl :
    ∀ A B : List (List Char), A ≠ [] → B ≠ [] →
      joinStr ['\n'] (A ++ B)
        = joinStr ['\n'] A ++ '\n' :: joinStr ['\n'] B := by
  intro A
  induction A with
  | nil => intro B h _; exact absurd rfl h
  | cons a A2 ih =>
    intro B _ hB
    cases A2 with
    | nil =>
      cases B with
      | nil => exact absurd rfl hB
      | cons b B2 =>
        rw [show ([a] ++ b :: B2) = a :: b :: B2 from rfl]
        rw [joinStr_cons_ne _ _ _ (by simp)]
        rw [show joinStr ['\n'] [a] = a from rfl]
        rw [List.append_assoc, List.singleton_append]
    | cons a2 A3 =>
      rw [List.cons_append]
      rw [joinStr_cons_ne _ _ _ (by simp)]
      rw [joinStr_cons_ne _ _ _ (by simp)]
      rw [ih B (by simp) hB]
      simp [List.append_assoc]

theorem _addindent_join (l0 : List Char) (ltail : List (List Char))
    (h0 : ('\n' : Char) ∉ l0) (ht : ∀ l ∈ ltail, ('\n' : Char) ∉ l) :
    _addindent (joinStr ['\n'] (l0 :: ltail)) 2
      = joinStr ['\n'] (l0 :: ltail.map (fun l => ' ' :: ' ' :: l)) := by
  cases ltail with
  | nil =>
    rw [show joinStr ['\n'] [l0] = l0 from rfl]
    rw [show (List.map (fun l => ' ' :: ' ' :: l) ([] : List (List Char))) = [] from rfl]
    rw [show joinStr ['\n'] [l0] = l0 from rfl]
    rw [_addindent]
    rw [splitNL_of_not_mem l0 h0]
  | cons t ts =>
    have hsplit : splitNL (joinStr ['\n'] (l0 :: t :: ts)) = l0 :: t :: ts := by
      refine splitNL_joinStr _ (by simp) ?_
      intro y hy
      rcases List.mem_cons.mp hy with hy | hy
      · exact hy ▸ h0
      · exact ht y hy
    have hred : _addindent (joinStr ['\n'] (l0 :: t :: ts)) 2
        = l0 ++ '\n' :: joinStr ['\n']
            ((t :: ts).map (fun line => List.replicate 2 ' ' ++ line)) := by
      rw [_addindent, hsplit]
    have hfg : (t :: ts).map (fun line => List.replicate 2 ' ' ++ line)
        = (t :: ts).map (fun l => ' ' :: ' ' :: l) := rfl
    rw [hred, hfg]
    rw [joinStr_cons_ne _ _ _ (by simp)]
    rw [List.append_assoc, List.singleton_append]

theorem cleanL_eq (l : List (String × Module)) :
    Module.namesClean.cleanL l
      = l.all (fun e => !(e.1.toList.contains '\n') && e.2.namesClean) := by
  induction l with
  | nil => simp [Module.namesClean.cleanL]
  | cons e r ih => simp [Module.namesClean.cleanL, ih, Bool.and_assoc]

theorem namesClean_parts (cls : String) (f : List (String × Value))
    (ps : List (String × Parameter)) (ms : List (String × Module)) (tr : Bool)
    (h : (Module.mk cls f ps ms tr).namesClean = true) :
    ('\n' : Char) ∉ cls.toList ∧ Module.namesClean.cleanL ms = true := by
  rw [Module.namesClean] at h
  rw [Bool.and_eq_true] at h
  refine ⟨?_, h.2⟩
  have := h.1
  simpa using this

theorem cleanL_mem (ms : List (String × Module))
    (h : Module.namesClean.cleanL ms = true) (e : String × Module) (he : e ∈ ms) :
    ('\n' : Char) ∉ e.1.toList ∧ e.2.namesClean = true := by
  rw [cleanL_eq, List.all_eq_true] at h
  have h2 := h e he
  rw [Bool.and_eq_true] at h2
  refine ⟨?_, h2.2⟩
  have := h2.1
  simpa using this

theorem specRenderLines_ne_nil (m : Module) : specRenderLines m ≠ [] := by
  cases m with
  | mk cls f ps ms tr =>
    rw [specRenderLines]
    by_cases h : ms.isEmpty <;> simp [h]

theorem childBlocks_ne_nil (x : String × Module) (xs : List (String × Module)) :
    specRenderLines.childBlocks (x :: xs) ≠ [] := by
  cases hsp : specRenderLines x.2 with
  | nil => exact absurd hsp (specRenderLines_ne_nil x.2)
  | cons l0 lt =>
    have hblock : specRenderLines.childBlocks (x :: xs)
        = ((' ' :: ' ' :: '(' :: x.1.toList ++ ')' :: ':' :: ' ' :: l0)
            :: lt.map (fun l => ' ' :: ' ' :: l))
          ++ specRenderLines.childBlocks xs := by
      rw [specRenderLines.childBlocks, hsp]
    rw [hblock]
    simp

theorem specRenderLines_clean :
    ∀ m : Module, m.namesClean = true →
      ∀ l ∈ specRenderLines m, ('\n' : Char) ∉ l := by
  refine module_strong_ind
    (fun m => m.namesClean = true → ∀ l ∈ specRenderLines m, ('\n' : Char) ∉ l) ?_
  intro m ih hclean
  cases m with
  | mk cls f ps ms tr =>
    obtain ⟨hcls, hms⟩ := namesClean_parts cls f ps ms tr hclean
    rw [specRenderLines]
    by_cases hempty : ms.isEmpty
    · simp only [hempty, if_true]
      intro l hl
      rw [List.mem_singleton] at hl
      subst hl
      intro hmem
      rcases List.mem_append.mp hmem with hmem | hmem
      · exact hcls hmem
      · simp at hmem
    · simp only [hempty, if_false]
      have haux : ∀ l2 : List (String × Module), (∀ y ∈ l2, y ∈ ms) →
          ∀ x ∈ specRenderLines.childBlocks l2, ('\n' : Char) ∉ x := by
        intro l2
        induction l2 with
        | nil =>
          intro _ x hx
          rw [specRenderLines.childBlocks] at hx
          simp at hx
        | cons e r ihr =>
          intro hsub x hx
          have hein : e ∈ ms := hsub e (List.mem_cons_self e r)
          obtain ⟨hename, heclean⟩ := cleanL_mem ms hms e hein
          have hsize : e.2.size < (Module.mk cls f ps ms tr).size := by
            have h1 := mem_size_le ms e hein
            rw [size_eq (Module.mk cls f ps ms tr)]
            simp only [Module._modules]
            omega
          have hrec := ih e.2 hsize heclean
          cases hsp : specRenderLines e.2 with
          | nil => exact absurd hsp (specRenderLines_ne_nil e.2)
          | cons l0 lt =>
            have hblock : specRenderLines.childBlocks (e :: r)
                = ((' ' :: ' ' :: '(' :: e.1.toList ++ ')' :: ':' :: ' ' :: l0)
                    :: lt.map (fun l => ' ' :: ' ' :: l))
                  ++ specRenderLines.childBlocks r := by
              rw [specRenderLines.childBlocks, hsp]
            rw [hblock] at hx
            rcases List.mem_append.mp hx with hx | hx
            · rcases List.mem_cons.mp hx with hx | hx
              · subst hx
                intro hmem
                rcases List.mem_cons.mp hmem with h1 | h1
                · exact absurd h1 (by decide)
                rcases List.mem_cons.mp h1 with h2 | h2
                · exact absurd h2 (by decide)
                rcases List.mem_cons.mp h2 with h3 | h3
                · exact absurd h3 (by decide)
                rcases List.mem_append.mp h3 with h4 | h4
                · exact hename h4
                rcases List.mem_cons.mp h4 with h5 | h5
                · exact absurd h5 (by decide)
                rcases List.mem_cons.mp h5 with h6 | h6
                · exact absurd h6 (by decide)
                rcases List.mem_cons.mp h6 with h7 | h7
                · exact absurd h7 (by decide)
                exact hrec l0 (by rw [hsp]; exact List.mem_cons_self l0 lt) h7
              · rw [List.mem_map] at hx
                obtain ⟨l, hl, hlx⟩ := hx
                subst hlx
                intro hmem
                rcases List.mem_cons.mp hmem with h1 | h1
                · exact absurd h1 (by decide)
                rcases List.mem_cons.mp h1 with h2 | h2
                · exact absurd h2 (by decide)
                exact hrec l (by rw [hsp]; exact List.mem_cons_of_mem l0 hl) h2
            · exact ihr (fun y hy => hsub y (List.mem_cons_of_mem e hy)) x hx
      intro l hl
      rcases List.mem_cons.mp hl with hl | hl
      · subst hl
        intro hmem
        rcases List.mem_append.mp hmem with hmem | hmem
        · exact hcls hmem
        · simp at hmem
      · rcases List.mem_append.mp hl with hl | hl
        · exact haux ms (fun y hy => hy) l hl
        · rw [List.mem_singleton] at hl
          subst hl
          simp

theorem childLines_cons (e : String × Module) (rest : List (String × Module)) :
    Module.reprChars.childLines (e :: rest)
      = ('(' :: e.1.toList ++ ')' :: ':' :: ' ' :: _addindent (e.2.reprChars) 2)
        :: Module.reprChars.childLines rest := by
  rw [Module.reprChars.childLines]

theorem reprChars_eq_spec :
    ∀ m : Module, m.namesClean = true →
      m.reprChars = joinStr ['\n'] (specRenderLines m) := by
  refine module_strong_ind
    (fun m => m.namesClean = true → m.reprChars = joinStr ['\n'] (specRenderLines m)) ?_
  intro m ih hclean
  cases m with
  | mk cls f ps ms tr =>
    obtain ⟨hcls, hms⟩ := namesClean_parts cls f ps ms tr hclean
    cases ms with
    | nil =>
      have h1 : (Module.mk cls f ps [] tr).reprChars = (cls.toList ++ ['(']) ++ [')'] := rfl
      have h2 : specRenderLines (Module.mk cls f ps [] tr) = [cls.toList ++ ['(', ')']] := rfl
      rw [h1, h2]
      rw [show joinStr ['\n'] [cls.toList ++ ['(', ')']] = cls.toList ++ ['(', ')'] from rfl]
      simp
    | cons e0 rest0 =>
      have hblk : ∀ l2 : List (String × Module), (∀ y ∈ l2, y ∈ e0 :: rest0) → l2 ≠ [] →
          ' ' :: ' ' :: joinStr ['\n', ' ', ' '] (Module.reprChars.childLines l2)
            = joinStr ['\n'] (specRenderLines.childBlocks l2) := by
        intro l2
        induction l2 with
        | nil => intro _ hne; exact absurd rfl hne
        | cons e r ihr =>
          intro hsub _
          have hein : e ∈ e0 :: rest0 := hsub e (List.mem_cons_self e r)
          obtain ⟨hename, heclean⟩ := cleanL_mem (e0 :: rest0) hms e hein
          have hsize : e.2.size < (Module.mk cls f ps (e0 :: rest0) tr).size := by
            have h1 := mem_size_le (e0 :: rest0) e hein
            rw [size_eq (Module.mk cls f ps (e0 :: rest0) tr)]
            simp only [Module._modules]
            omega
          have hrec := ih e.2 hsize heclean
          have hlinesclean := specRenderLines_clean e.2 heclean
          cases hsp : specRenderLines e.2 with
          | nil => exact absurd hsp (specRenderLines_ne_nil e.2)
          | cons l0 lt =>
            have h0 : ('\n' : Char) ∉ l0 :=
              hlinesclean l0 (by rw [hsp]; exact List.mem_cons_self l0 lt)
            have ht : ∀ l ∈ lt, ('\n' : Char) ∉ l := fun l hl =>
              hlinesclean l (by rw [hsp]; exact List.mem_cons_of_mem l0 hl)
            have haddind : _addindent (e.2.reprChars) 2
                = joinStr ['\n'] (l0 :: lt.map (fun l => ' ' :: ' ' :: l)) := by
              rw [hrec, hsp]
              exact _addindent_join l0 lt h0 ht
            have hone : ' ' :: ' ' ::
                  ('(' :: e.1.toList ++ ')' :: ':' :: ' ' :: _addindent (e.2.reprChars) 2)
                = joinStr ['\n']
                    ((' ' :: ' ' :: '(' :: e.1.toList ++ ')' :: ':' :: ' ' :: l0)
                      :: lt.map (fun l => ' ' :: ' ' :: l)) := by
              cases hlt : lt with
              | nil =>
                rw [haddind, hlt]
                simp [joinStr]
              | cons t ts =>
                rw [haddind, hlt]
                rw [joinStr_cons_ne _ _ _ (by simp)]
                rw [joinStr_cons_ne _ _ _ (by simp)]
                simp [List.append_assoc]
            have hblockeq : specRenderLines.childBlocks (e :: r)
                = ((' ' :: ' ' :: '(' :: e.1.toList ++ ')' :: ':' :: ' ' :: l0)
                    :: lt.map (fun l => ' ' :: ' ' :: l))
                  ++ specRenderLines.childBlocks r := by
              rw [specRenderLines.childBlocks, hsp]
            rw [childLines_cons]
            cases r with
            | nil =>
              rw [show Module.reprChars.childLines [] = [] from rfl]
              rw [show joinStr ['\n', ' ', ' ']
                    [('(' :: e.1.toList ++ ')' :: ':' :: ' ' :: _addindent (e.2.reprChars) 2)]
                  = ('(' :: e.1.toList ++ ')' :: ':' :: ' ' :: _addindent (e.2.reprChars) 2)
                  from rfl]
              rw [hblockeq]
              rw [show specRenderLines.childBlocks ([] : List (String × Module)) = [] from rfl]
              rw [List.append_nil]
              exact hone
            | cons r1 r2 =>
              rw [joinStr_cons_ne _ _ _ (by rw [childLines_cons]; simp)]
              rw [hblockeq]
              rw [joinStr_append_nl _ _ (by simp) (childBlocks_ne_nil r1 r2)]
              rw [← hone]
              rw [← ihr (fun y hy => hsub y (List.mem_cons_of_mem e hy)) (by simp)]
              simp [List.append_assoc]
      have hrepr : (Module.mk cls f ps (e0 :: rest0) tr).reprChars
          = ((cls.toList ++ ['('])
              ++ ('\n' :: ' ' :: ' ' ::
                  joinStr ['\n', ' ', ' '] (Module.reprChars.childLines (e0 :: rest0)))
              ++ ['\n']) ++ [')'] := rfl
      have hspec : specRenderLines (Module.mk cls f ps (e0 :: rest0) tr)
          = (cls.toList ++ ['('])
              :: (specRenderLines.childBlocks (e0 :: rest0) ++ [[')']]) := rfl
      rw [hrepr, hspec]
      rw [joinStr_cons_ne _ _ _ (by simp)]
      rw [joinStr_append_nl _ _ (childBlocks_ne_nil e0 rest0) (by simp)]
      rw [show joinStr ['\n'] [[')']] = [')'] from rfl]
      rw [← hblk (e0 :: rest0) (fun y hy => hy) (by simp)]
      simp [List.append_assoc]

/-- C8: the textual rendering is the type name, `(`, then for each child
in insertion order the line `(localName): ` plus the child's own rendering
with every line after its first indented by two additional spaces, the
child blocks sitting at the two-space indent and joined by newlines, then
`)` (formalised line by line by `specRenderLines`, for trees whose class
names and keys are newline-free); a module without children renders as
`TypeName()`, and the Root/Leaf example renders exactly as
`"Root(\n  (inner): Leaf()\n)"`. -/
theorem C8_repr_rendering :
    (∀ m : Module, m.namesClean = true →
      m.reprChars = joinStr ['\n'] (specRenderLines m))
    ∧ (∀ (cls : String) (f : List (String × Value)) (ps : List (String × Parameter))
        (tr : Bool), (Module.mk cls f ps [] tr).reprChars = cls.toList ++ ['(', ')'])
    ∧ c8Root.reprChars = "Root(\n  (inner): Leaf()\n)".toList := by
  refine ⟨reprChars_eq_spec, ?_, rfl⟩
  intro cls f ps tr
  have h1 : (Module.mk cls f ps [] tr).reprChars = (cls.toList ++ ['(']) ++ [')'] := rfl
  rw [h1]
  simp

/-- Witness for C8 at the Root/Leaf example tree. -/
theorem C8_repr_rendering_witness :
    c8Root.namesClean = true
    ∧ c8Root.reprChars = joinStr ['\n'] (specRenderLines c8Root) := by
  exact ⟨rfl, C8_repr_rendering.1 c8Root rfl⟩

end Minitorch
